import Mathlib

/-!
Shallow embedding of the BGE-M3 embedding post-processor
(`src/samples/python/bge_m3_embedder.py`), covering the token reorderer
(`_convert_tokenizer_outputs`, lines 67-80) and the post-processing part of
`encode` (lines 109-137): dense extraction, sparse max-pool aggregation into a
lexical-weight dictionary, and ColBERT multi-vector extraction.

Modelling choices:
* float weights are modelled as `ℚ` (the claims are about `max`, comparison
  with 0 and dictionary upserts, all exact order-theoretic operations);
* numpy indexing that can raise `IndexError` (and `np.max` of an empty axis)
  is modelled with `Option`: `none` is the raised-exception outcome, in which
  case the whole `encode` call produces no result;
* Python dicts keyed by `str(int(token_id))` are modelled as insertion-ordered
  association lists keyed by the integer id (decimal stringification of
  integers is injective, so the key sets are in bijection);
* Python's stable `list.sort()` on `(position, token)` tuples is modelled by
  `List.insertionSort` under the lexicographic order `pairLe`: both are
  sorts w.r.t. the same total order, and a sorted permutation is unique up to
  exchanging fully equal pairs, so the two produce identical lists.
-/

namespace BgeM3

/-- Special token ids for sparse-weight filtering, source line 30:
`self.special_token_ids = {0, 1, 2, 3}`. -/
def specialTokenIds : List Int := [0, 1, 2, 3]

/-- The order Python's `token_pairs.sort()` (line 71) sorts by: tuples
`(position, token)` compare lexicographically — position first, token id as
tie-breaker. -/
def pairLe (a b : Int × Int) : Prop :=
  a.1 < b.1 ∨ (a.1 = b.1 ∧ a.2 ≤ b.2)

instance : DecidableRel pairLe := fun a b =>
  if h : a.1 < b.1 ∨ (a.1 = b.1 ∧ a.2 ≤ b.2) then .isTrue h else .isFalse h

instance : IsTotal (Int × Int) pairLe :=
  ⟨fun a b => by unfold pairLe; omega⟩

instance : IsTrans (Int × Int) pairLe :=
  ⟨fun a b c hab hbc => by unfold pairLe at *; omega⟩

/-- Line 70: `token_pairs = list(zip(token_indices, tokens))`. -/
def tokenPairs (tokens indices : List Int) : List (Int × Int) :=
  indices.zip tokens

/-- Line 71: `token_pairs.sort()` — sort the (position, token) pairs by the
lexicographic tuple order. -/
def sortedTokenPairs (tokens indices : List Int) : List (Int × Int) :=
  List.insertionSort pairLe (tokenPairs tokens indices)

/-- Lines 67-80, `_convert_tokenizer_outputs`: pair tokens with their position
indices, sort by position (token id breaking ties), project the tokens back
out, and build an all-ones attention mask of the same length. -/
def convertTokenizerOutputs (tokens indices : List Int) : List Int × List Int :=
  let orderedTokens := (sortedTokenPairs tokens indices).map Prod.snd
  (orderedTokens, orderedTokens.map fun _ => 1)

/-- Line 119 reduction: `np.max(sparse_weights[0, i])` maximum over the hidden
dimension; `np.max` of an empty axis raises, hence `none` on `[]`. -/
def rowMax (row : List ℚ) : Option ℚ :=
  row.max?

/-- Line 119 indexing plus reduction: `sparse_weights[0, i]` (IndexError when
either index is out of range, modelled as `none`) followed by `rowMax`. -/
def posWeight (sparse : List (List (List ℚ))) (i : Nat) : Option ℚ :=
  (sparse[0]?.bind fun b => b[i]?).bind rowMax

/-- Lookup in the insertion-ordered association list modelling the Python dict
`sparse_dict` (keys are the integer token ids behind the `str` keys). -/
def dictFind : List (Int × ℚ) → Int → Option ℚ
  | [], _ => none
  | (k, v) :: rest, t => if k = t then some v else dictFind rest t

/-- Line 123: `sparse_dict.get(str(token_id_int), 0)`. -/
def dictGetD (d : List (Int × ℚ)) (t : Int) (dflt : ℚ) : ℚ :=
  (dictFind d t).getD dflt

/-- Python dict assignment `sparse_dict[key] = v`: replace in place when the
key exists, append otherwise. -/
def dictSet : List (Int × ℚ) → Int → ℚ → List (Int × ℚ)
  | [], t, v => [(t, v)]
  | (k, w) :: rest, t, v =>
    if k = t then (k, v) :: rest else (k, w) :: dictSet rest t v

/-- Lines 116-125, the sparse-aggregation loop of `encode`, position index `i`
running along `input_ids[0]`: positions with `attention_mask[0, i] != 1` or a
special token id are skipped; otherwise the max-pooled weight is taken and,
when positive, upserted as `max(sparse_dict.get(key, 0), weight)`. Accessing
the mask or the sparse tensor out of range is the `none` (raised) outcome. -/
def sparseLoopFrom (special mask : List Int) (sparse : List (List (List ℚ))) :
    Nat → List Int → List (Int × ℚ) → Option (List (Int × ℚ))
  | _, [], d => some d
  | i, tid :: rest, d =>
    match mask[i]? with
    | none => none
    | some m =>
      if m = 1 ∧ tid ∉ special then
        match posWeight sparse i with
        | none => none
        | some w =>
          if 0 < w then
            sparseLoopFrom special mask sparse (i + 1) rest
              (dictSet d tid (max (dictGetD d tid 0) w))
          else
            sparseLoopFrom special mask sparse (i + 1) rest d
      else
        sparseLoopFrom special mask sparse (i + 1) rest d

/-- Lines 115-125: the sparse aggregation over the whole id sequence, starting
from the empty dict. -/
def sparseAggregate (special mask : List Int) (sparse : List (List (List ℚ)))
    (inputIds : List Int) : Option (List (Int × ℚ)) :=
  sparseLoopFrom special mask sparse 0 inputIds []

/-- Shape `colbert_vectors.shape[1]` (line 129) of a batch-nonempty nested-list
tensor: the length of batch row 0. -/
def colbertShape1 (colbert : List (List (List ℚ))) : Nat :=
  (colbert[0]?.map List.length).getD 0

/-- Lines 128-131, the ColBERT loop with `n` iterations left and current
position `i`: positions with mask 1 contribute `colbert_vectors[0, i]`
unchanged, other positions are skipped; out-of-range mask or tensor access is
the raised (`none`) outcome. -/
def colbertLoopFrom (mask : List Int) (colbert : List (List (List ℚ))) :
    Nat → Nat → Option (List (List ℚ))
  | _, 0 => some []
  | i, n + 1 =>
    match mask[i]? with
    | none => none
    | some m =>
      if m = 1 then
        match colbert[0]?.bind fun b => b[i]? with
        | none => none
        | some v => (colbertLoopFrom mask colbert (i + 1) n).map (v :: ·)
      else
        colbertLoopFrom mask colbert (i + 1) n

/-- Lines 128-131: `for i in range(colbert_vectors.shape[1])` collecting the
vectors of mask-1 positions in position order. -/
def colbertExtract (mask : List Int) (colbert : List (List (List ℚ))) :
    Option (List (List ℚ)) :=
  colbertLoopFrom mask colbert 0 (colbertShape1 colbert)

/-- Line 112: `dense_vecs = dense_embeddings[0].tolist()` — batch row 0,
unchanged; IndexError (`none`) when the batch dimension is 0. -/
def denseExtract (dense : List (List ℚ)) : Option (List ℚ) :=
  dense[0]?

/-- The result record of `encode` (lines 133-137). -/
structure EmbeddingResult where
  dense_vecs : List ℚ
  lexical_weights : List (Int × ℚ)
  colbert_vecs : List (List ℚ)
deriving DecidableEq, Repr

/-- Lines 109-137: the post-processing part of `encode`, from the three
already-materialized model output tensors plus `input_ids[0]` and
`attention_mask[0]` to the result record; any raised indexing error aborts the
whole call with no partial result. -/
def encodePost (dense : List (List ℚ)) (sparse colbert : List (List (List ℚ)))
    (inputIds mask : List Int) : Option EmbeddingResult :=
  match denseExtract dense with
  | none => none
  | some dv =>
    match sparseAggregate specialTokenIds mask sparse inputIds with
    | none => none
    | some lw =>
      match colbertExtract mask colbert with
      | none => none
      | some cv => some ⟨dv, lw, cv⟩

/-- Specification-side description of which max-pooled weights actually reach
the upsert at position `i` onward for token id `t`: position `i` contributes
its `posWeight` exactly when the mask there is 1, the id matches `t`, `t` is
not special, and the weight is positive. -/
def contribFrom (special mask : List Int) (sparse : List (List (List ℚ)))
    (t : Int) : Nat → List Int → List ℚ
  | _, [] => []
  | i, tid :: rest =>
    if mask[i]? = some 1 ∧ tid ∉ special ∧ tid = t then
      match posWeight sparse i with
      | none => contribFrom special mask sparse t (i + 1) rest
      | some w =>
        if 0 < w then w :: contribFrom special mask sparse t (i + 1) rest
        else contribFrom special mask sparse t (i + 1) rest
    else contribFrom special mask sparse t (i + 1) rest

/-- The contributing weights of token id `t` over the whole sequence. -/
def contribWeights (special mask : List Int) (sparse : List (List (List ℚ)))
    (inputIds : List Int) (t : Int) : List ℚ :=
  contribFrom special mask sparse t 0 inputIds

/-- How the loop folds contributing weights into an existing dict entry:
each step stores `max(existing_or_0, w)`. -/
def accumulate (o : Option ℚ) (ws : List ℚ) : Option ℚ :=
  ws.foldl (fun acc w => some (max (acc.getD 0) w)) o

/-! Helper lemmas about the dictionary operations. -/

theorem dictFind_dictSet_self (d : List (Int × ℚ)) (t : Int) (v : ℚ) :
    dictFind (dictSet d t v) t = some v := by
  induction d with
  | nil => simp [dictSet, dictFind]
  | cons p rest ih =>
    obtain ⟨k, w⟩ := p
    by_cases hk : k = t
    · simp [dictSet, dictFind, hk]
    · simp [dictSet, dictFind, hk, ih]

theorem dictFind_dictSet_ne (d : List (Int × ℚ)) (t t' : Int) (v : ℚ) (h : t' ≠ t) :
    dictFind (dictSet d t v) t' = dictFind d t' := by
  induction d with
  | nil =>
    simp only [dictSet, dictFind]
    rw [if_neg (fun h' => h h'.symm)]
  | cons p rest ih =>
    obtain ⟨k, w⟩ := p
    by_cases hk : k = t
    · simp only [dictSet, if_pos hk, dictFind]
      rw [if_neg (fun h' => h (h'.symm.trans hk)), if_neg (fun h' => h (h'.symm.trans hk))]
    · simp only [dictSet, if_neg hk, dictFind]
      by_cases hk' : k = t'
      · rw [if_pos hk', if_pos hk']
      · rw [if_neg hk', if_neg hk', ih]

theorem mem_dictSet (d : List (Int × ℚ)) (t : Int) (v : ℚ) (p : Int × ℚ) :
    p ∈ dictSet d t v → p ∈ d ∨ p = (t, v) := by
  induction d with
  | nil =>
    intro hp
    simp only [dictSet, List.mem_singleton] at hp
    exact Or.inr hp
  | cons q rest ih =>
    obtain ⟨k, w⟩ := q
    intro hp
    by_cases hk : k = t
    · simp only [dictSet, if_pos hk, List.mem_cons] at hp
      rcases hp with h1 | h1
      · exact Or.inr (by rw [h1, hk])
      · exact Or.inl (List.mem_cons_of_mem _ h1)
    · simp only [dictSet, if_neg hk, List.mem_cons] at hp
      rcases hp with h1 | h1
      · exact Or.inl (h1 ▸ List.mem_cons_self _ _)
      · rcases ih h1 with h2 | h2
        · exact Or.inl (List.mem_cons_of_mem _ h2)
        · exact Or.inr h2

/-! Helper lemmas about `accumulate`. -/

theorem accumulate_cons (o : Option ℚ) (w : ℚ) (ws : List ℚ) :
    accumulate o (w :: ws) = accumulate (some (max (o.getD 0) w)) ws := rfl

theorem accumulate_some (v : ℚ) (ws : List ℚ) :
    accumulate (some v) ws = some (ws.foldl max v) := by
  induction ws generalizing v with
  | nil => rfl
  | cons w ws ih => simpa [accumulate_cons] using ih (max v w)

theorem accumulate_none_of_pos (ws : List ℚ) (h : ∀ w ∈ ws, 0 < w) :
    accumulate none ws = ws.max? := by
  cases ws with
  | nil => rfl
  | cons w ws =>
    have hw : max (0 : ℚ) w = w :=
      max_eq_right (le_of_lt (h w (List.mem_cons_self _ _)))
    rw [accumulate_cons, Option.getD_none, hw, accumulate_some]
    rfl

/-- Positions skipped by the loop contribute nothing, and each contributing
position adds exactly its max-pooled weight: a successful run of the loop
leaves, for every token id `t`, the fold of the contributing weights over the
incoming dictionary entry. -/
theorem sparseLoopFrom_find (special mask : List Int) (sparse : List (List (List ℚ))) :
    ∀ (L : List Int) (i : Nat) (d d' : List (Int × ℚ)),
      sparseLoopFrom special mask sparse i L d = some d' →
      ∀ t, dictFind d' t = accumulate (dictFind d t) (contribFrom special mask sparse t i L) := by
  intro L
  induction L with
  | nil =>
    intro i d d' h t
    simp only [sparseLoopFrom, Option.some.injEq] at h
    subst h
    rfl
  | cons tid rest ih =>
    intro i d d' h t
    cases hm : mask[i]? with
    | none =>
      simp only [sparseLoopFrom, hm] at h
      exact Option.noConfusion h
    | some m =>
      simp only [sparseLoopFrom, hm] at h
      by_cases hc : m = 1 ∧ tid ∉ special
      · obtain ⟨hm1, hs⟩ := hc
        subst hm1
        rw [if_pos ⟨rfl, hs⟩] at h
        cases hw : posWeight sparse i with
        | none =>
          simp only [hw] at h
          exact Option.noConfusion h
        | some w =>
          simp only [hw] at h
          by_cases ht : tid = t
          · subst ht
            rw [contribFrom, if_pos ⟨hm, hs, rfl⟩]
            simp only [hw]
            by_cases hww : 0 < w
            · rw [if_pos hww] at h
              rw [if_pos hww, accumulate_cons,
                ih (i + 1) _ d' h tid, dictFind_dictSet_self]
              rfl
            · rw [if_neg hww] at h
              rw [if_neg hww, ih (i + 1) _ d' h tid]
          · rw [contribFrom, if_neg (fun hcond => ht hcond.2.2)]
            by_cases hww : 0 < w
            · rw [if_pos hww] at h
              rw [ih (i + 1) _ d' h t, dictFind_dictSet_ne _ _ _ _ (fun he => ht he.symm)]
            · rw [if_neg hww] at h
              rw [ih (i + 1) _ d' h t]
      · rw [if_neg hc] at h
        rw [contribFrom, if_neg (fun hcond => hc ⟨by
            have := hcond.1
            rw [hm] at this
            exact (Option.some.injEq _ _ ▸ this : m = 1), hcond.2.1⟩)]
        rw [ih (i + 1) _ d' h t]

/-- Every contributing weight is positive (the loop filters on `weight > 0`). -/
theorem contribFrom_pos (special mask : List Int) (sparse : List (List (List ℚ)))
    (t : Int) : ∀ (L : List Int) (i : Nat) (w : ℚ),
      w ∈ contribFrom special mask sparse t i L → 0 < w := by
  intro L
  induction L with
  | nil =>
    intro i w hw
    simp only [contribFrom] at hw
    exact absurd hw (List.not_mem_nil w)
  | cons tid rest ih =>
    intro i w hw
    rw [contribFrom] at hw
    by_cases hc : mask[i]? = some 1 ∧ tid ∉ special ∧ tid = t
    · rw [if_pos hc] at hw
      cases hpw : posWeight sparse i with
      | none =>
        simp only [hpw] at hw
        exact ih (i + 1) w hw
      | some w' =>
        simp only [hpw] at hw
        by_cases hww : 0 < w'
        · rw [if_pos hww] at hw
          rcases List.mem_cons.mp hw with h1 | h1
          · exact h1 ▸ hww
          · exact ih (i + 1) w h1
        · rw [if_neg hww] at hw
          exact ih (i + 1) w hw
    · rw [if_neg hc] at hw
      exact ih (i + 1) w hw

/-- A successful loop run only ever adds entries whose key comes from the
processed id list, is not special, and whose value is positive. -/
theorem sparseLoopFrom_mem (special mask : List Int) (sparse : List (List (List ℚ))) :
    ∀ (L : List Int) (i : Nat) (d d' : List (Int × ℚ)),
      sparseLoopFrom special mask sparse i L d = some d' →
      ∀ p ∈ d', p ∈ d ∨ (p.1 ∈ L ∧ p.1 ∉ special ∧ 0 < p.2) := by
  intro L
  induction L with
  | nil =>
    intro i d d' h p hp
    simp only [sparseLoopFrom, Option.some.injEq] at h
    exact Or.inl (h ▸ hp)
  | cons tid rest ih =>
    intro i d d' h p hp
    have step : ∀ q : Int × ℚ,
        (q ∈ d ∨ (q.1 ∈ rest ∧ q.1 ∉ special ∧ 0 < q.2)) →
        q ∈ d ∨ (q.1 ∈ tid :: rest ∧ q.1 ∉ special ∧ 0 < q.2) := by
      rintro q (hq | ⟨h1, h2, h3⟩)
      · exact Or.inl hq
      · exact Or.inr ⟨List.mem_cons_of_mem _ h1, h2, h3⟩
    cases hm : mask[i]? with
    | none =>
      simp only [sparseLoopFrom, hm] at h
      exact Option.noConfusion h
    | some m =>
      simp only [sparseLoopFrom, hm] at h
      by_cases hc : m = 1 ∧ tid ∉ special
      · rw [if_pos hc] at h
        cases hw : posWeight sparse i with
        | none =>
          simp only [hw] at h
          exact Option.noConfusion h
        | some w =>
          simp only [hw] at h
          by_cases hww : 0 < w
          · rw [if_pos hww] at h
            rcases ih (i + 1) _ d' h p hp with h1 | h1
            · rcases mem_dictSet _ _ _ _ h1 with h2 | h2
              · exact Or.inl h2
              · refine Or.inr ⟨?_, ?_, ?_⟩
                · rw [h2]
                  exact List.mem_cons_self _ _
                · rw [h2]
                  exact hc.2
                · rw [h2]
                  exact lt_max_of_lt_right hww
            · exact step p (Or.inr h1)
          · rw [if_neg hww] at h
            rcases ih (i + 1) _ d' h p hp with h1 | h1
            · exact Or.inl h1
            · exact step p (Or.inr h1)
      · rw [if_neg hc] at h
        rcases ih (i + 1) _ d' h p hp with h1 | h1
        · exact Or.inl h1
        · exact step p (Or.inr h1)

/-- If some processed position reads the mask as 1, carries a non-special id
and its sparse row access or reduction raises, the whole loop raises. -/
theorem sparseLoopFrom_none (special mask : List Int) (sparse : List (List (List ℚ))) :
    ∀ (L : List Int) (i off : Nat) (tid : Int) (d : List (Int × ℚ)),
      L[off]? = some tid → mask[i + off]? = some 1 → tid ∉ special →
      posWeight sparse (i + off) = none →
      sparseLoopFrom special mask sparse i L d = none := by
  intro L
  induction L with
  | nil =>
    intro i off tid d h1 _ _ _
    exact Option.noConfusion (List.getElem?_nil ▸ h1 : (none : Option Int) = some tid)
  | cons hd rest ih =>
    intro i off tid d h1 h2 h3 h4
    cases off with
    | zero =>
      have hhd : hd = tid := Option.some.injEq _ _ ▸ (List.getElem?_cons_zero ▸ h1)
      subst hhd
      rw [Nat.add_zero] at h2 h4
      simp only [sparseLoopFrom, h2, h4]
      rw [if_pos ⟨trivial, h3⟩]
    | succ o =>
      have h1' : rest[o]? = some tid := List.getElem?_cons_succ ▸ h1
      have harith : i + 1 + o = i + (o + 1) := by omega
      cases hm : mask[i]? with
      | none => simp only [sparseLoopFrom, hm]
      | some m =>
        simp only [sparseLoopFrom, hm]
        have hrec : ∀ d₂ : List (Int × ℚ),
            sparseLoopFrom special mask sparse (i + 1) rest d₂ = none :=
          fun d₂ => ih (i + 1) o tid d₂ h1' (harith ▸ h2) h3 (harith ▸ h4)
        by_cases hc : m = 1 ∧ hd ∉ special
        · rw [if_pos hc]
          cases hw : posWeight sparse i with
          | none => simp only [hw]
          | some w =>
            simp only [hw]
            by_cases hww : 0 < w
            · rw [if_pos hww]
              exact hrec _
            · rw [if_neg hww]
              exact hrec _
        · rw [if_neg hc]
          exact hrec _

/-- The ColBERT loop over a batch-1 tensor with position dimension matching the
mask collects exactly the vectors of the mask-1 positions, in order. -/
theorem colbertLoopFrom_eq (mask : List Int) (rows : List (List ℚ)) :
    ∀ (n k : Nat), mask.length = rows.length → k + n = rows.length →
      colbertLoopFrom mask [rows] k n =
        some ((((mask.drop k).zip (rows.drop k)).filter fun p => p.1 == 1).map Prod.snd) := by
  intro n
  induction n with
  | zero =>
    intro k hlen hk
    have h1 : rows.drop k = [] := List.drop_eq_nil_of_le (by omega)
    have h2 : mask.drop k = [] := List.drop_eq_nil_of_le (by omega)
    rw [h1, h2]
    rfl
  | succ n ih =>
    intro k hlen hk
    have hkm : k < mask.length := by omega
    have hkr : k < rows.length := by omega
    have hmask : mask[k]? = some mask[k] := List.getElem?_eq_getElem hkm
    have hrows : (([rows] : List (List (List ℚ)))[0]?.bind fun b => b[k]?)
        = some rows[k] := by
      simp [List.getElem?_eq_getElem hkr]
    rw [List.drop_eq_getElem_cons hkm, List.drop_eq_getElem_cons hkr]
    simp only [colbertLoopFrom, hmask, hrows]
    by_cases hm1 : mask[k] = 1
    · rw [if_pos hm1, ih (k + 1) hlen (by omega), List.zip_cons_cons,
        List.filter_cons_of_pos (by simp [hm1]), List.map_cons]
      rfl
    · rw [if_neg hm1, ih (k + 1) hlen (by omega), List.zip_cons_cons,
        List.filter_cons_of_neg (by simp [hm1])]

/-- Selecting by mask keeps one vector per mask-1 position: the output length
is the number of ones in the mask. -/
theorem filter_zip_length (mask : List Int) (rows : List (List ℚ))
    (h : mask.length = rows.length) :
    ((((mask.zip rows).filter fun p => p.1 == 1).map Prod.snd)).length
      = (mask.filter fun m => m == 1).length := by
  induction mask generalizing rows with
  | nil => simp
  | cons m ms ih =>
    cases rows with
    | nil => simp at h
    | cons r rs =>
      have h' : ms.length = rs.length := by simpa using h
      by_cases hm : m = 1
      · simp [List.filter_cons, hm, ih rs h']
      · simp [List.filter_cons, hm, ih rs h']

/-- The lexicographic tuple order only lets the first component grow. -/
theorem pairLe_fst_le {a b : Int × Int} (h : pairLe a b) : a.1 ≤ b.1 := by
  rcases h with h | ⟨h, _⟩
  · exact le_of_lt h
  · exact le_of_eq h

theorem sortedTokenPairs_sorted (tokens indices : List Int) :
    List.Sorted pairLe (sortedTokenPairs tokens indices) :=
  List.sorted_insertionSort pairLe _

theorem sortedTokenPairs_perm (tokens indices : List Int) :
    (sortedTokenPairs tokens indices).Perm (tokenPairs tokens indices) :=
  List.perm_insertionSort pairLe _

/-! Claim theorems. -/

/-- C1: In any sparse aggregation over inputIds, attentionMask and a sparse
tensor, the candidate weight of a position is the maximum over the hidden
dimension of the position's sparse row, and a position contributes no
dictionary entry when its mask is not 1, its token id is special, or that
maximum is not positive: the final entry of each token id is exactly the
maximum of its contributing per-position maxima (`none` when there are no
contributions). -/
theorem sparse_position_weight_rule (special mask inputIds : List Int)
    (sparse : List (List (List ℚ))) (d : List (Int × ℚ))
    (h : sparseAggregate special mask sparse inputIds = some d) (t : Int) :
    dictFind d t = (contribWeights special mask sparse inputIds t).max? := by
  rw [sparseLoopFrom_find special mask sparse inputIds 0 [] d h t]
  exact accumulate_none_of_pos _ (contribFrom_pos special mask sparse t inputIds 0)

/-- C2: When a non-special token id contributes at exactly two positions with
max-pooled weights w1 and w2, its aggregated lexical weight is `max w1 w2` —
not the sum and not the last-seen value. -/
theorem sparse_duplicate_max (special mask inputIds : List Int)
    (sparse : List (List (List ℚ))) (d : List (Int × ℚ)) (t : Int) (w1 w2 : ℚ)
    (h : sparseAggregate special mask sparse inputIds = some d)
    (hc : contribWeights special mask sparse inputIds t = [w1, w2]) :
    dictFind d t = some (max w1 w2) := by
  have h1 : (0 : ℚ) < w1 :=
    contribFrom_pos special mask sparse t inputIds 0 w1
      (by rw [show contribFrom special mask sparse t 0 inputIds = [w1, w2] from hc]
          exact List.mem_cons_self _ _)
  rw [sparseLoopFrom_find special mask sparse inputIds 0 [] d h t,
    show contribFrom special mask sparse t 0 inputIds = [w1, w2] from hc,
    show accumulate (dictFind [] t) [w1, w2] = some (max (max 0 w1) w2) from rfl,
    max_eq_right h1.le]

/-- C7: On every successful aggregation, each entry's key is a token id that
occurs in inputIds and is not special, and each stored value is positive. -/
theorem lexical_weights_invariant (special mask inputIds : List Int)
    (sparse : List (List (List ℚ))) (d : List (Int × ℚ))
    (h : sparseAggregate special mask sparse inputIds = some d) :
    ∀ p ∈ d, p.1 ∈ inputIds ∧ p.1 ∉ special ∧ 0 < p.2 := by
  intro p hp
  rcases sparseLoopFrom_mem special mask sparse inputIds 0 [] d h p hp with h1 | h1
  · exact absurd h1 (List.not_mem_nil p)
  · exact h1

/-- C4 counterexample: a sparse tensor with batch size 2 (≠ 1) is not
rejected — the aggregation silently uses batch row 0 and succeeds, contrary to
the claim that any batch size ≠ 1 fails with ShapeMismatch. -/
theorem sparse_batch2_accepted :
    sparseAggregate specialTokenIds [1] [[[(1 : ℚ)]], [[(2 : ℚ)]]] [501]
      = some [(501, 1)] := by
  norm_num [sparseAggregate, sparseLoopFrom, posWeight, rowMax, dictSet, dictGetD,
    dictFind, specialTokenIds, List.max?]

/-- C4 amended: the aggregation fails — with no lexicalWeights produced — when
some processed position (attention mask 1, non-special token id) has no sparse
row to read, as at position 3 of the claim's scenario with position dimension 3,
N = 4, an all-ones mask and non-special ids. Positions that are masked out or
hold special ids short-circuit before the row access, so they never trigger
this failure. -/
theorem sparse_shape_failure_amended (special mask inputIds : List Int)
    (sparse : List (List (List ℚ))) (i : Nat) (tid : Int)
    (h1 : inputIds[i]? = some tid) (h2 : mask[i]? = some 1) (h3 : tid ∉ special)
    (h4 : posWeight sparse i = none) :
    sparseAggregate special mask sparse inputIds = none :=
  sparseLoopFrom_none special mask sparse inputIds 0 i tid [] h1
    (by simpa using h2) h3 (by simpa using h4)

/-- C8 counterexample: a dense tensor with batch size 2 (≠ 1) is not
rejected — row 0 is returned and the extra row silently ignored, contrary to
the claim that any batch dimension ≠ 1 fails with ShapeMismatch. -/
theorem dense_batch2_accepted :
    denseExtract [[(1 : ℚ)], [(2 : ℚ)]] = some [(1 : ℚ)] := rfl

/-- C8 amended: the dense extractor returns batch row 0 unchanged whenever the
batch dimension is at least 1 (extra rows ignored, an empty row allowed), and
fails only when the batch dimension is 0. -/
theorem dense_row0_amended :
    (∀ (v : List ℚ) (rest : List (List ℚ)), denseExtract (v :: rest) = some v) ∧
    denseExtract ([] : List (List ℚ)) = none :=
  ⟨fun _ _ => List.getElem?_cons_zero, List.getElem?_nil⟩

/-- C9: the post-processing pipeline is a pure function of the materialized
tensors, inputIds and attentionMask — two runs on the same inputs give the
same result. -/
theorem encode_deterministic (dense : List (List ℚ))
    (sparse colbert : List (List (List ℚ))) (inputIds mask : List Int)
    (r1 r2 : Option EmbeddingResult)
    (h1 : encodePost dense sparse colbert inputIds mask = r1)
    (h2 : encodePost dense sparse colbert inputIds mask = r2) : r1 = r2 :=
  h1.symm.trans h2

/-- C3 (the code's actual behavior at the claim's failing input): the position
array [0,0,2,3], with a duplicate 0 and no 1, is not rejected — the reorderer
sorts the pairs and returns all four tokens with an all-ones mask, raising no
error at all instead of a MalformedTokenization failure. -/
theorem reorderer_accepts_malformed_positions :
    convertTokenizerOutputs [10, 11, 12, 13] [0, 0, 2, 3]
      = ([10, 11, 12, 13], [1, 1, 1, 1]) := by decide

/-- C5: For a batch-1 colbert tensor whose position dimension matches the mask
length, the extraction returns exactly the tensor's vectors at the mask-1
positions, unchanged and in ascending position order (no special-token
filtering), and the output length is the number of mask-1 positions. -/
theorem colbert_mask_selection (mask : List Int) (rows : List (List ℚ))
    (h : mask.length = rows.length) :
    colbertExtract mask [rows]
        = some (((mask.zip rows).filter fun p => p.1 == 1).map Prod.snd) ∧
    (((mask.zip rows).filter fun p => p.1 == 1).map Prod.snd).length
        = (mask.filter fun m => m == 1).length := by
  constructor
  · have hs : colbertShape1 [rows] = rows.length := by simp [colbertShape1]
    rw [colbertExtract, hs]
    simpa using colbertLoopFrom_eq mask rows rows.length 0 h (by omega)
  · exact filter_zip_length mask rows h

/-- C6: When the position indices are a permutation of [0, N), the reorderer
outputs a sequence of length N whose element at index p is the token paired
with position p. -/
theorem reorderer_sorts_by_position (tokens indices : List Int)
    (hlen : indices.length = tokens.length)
    (hperm : indices.Perm ((List.range tokens.length).map fun n : Nat => (n : Int))) :
    (convertTokenizerOutputs tokens indices).1.length = tokens.length ∧
    ∀ (j p : Nat), indices[j]? = some ((p : Int)) → p < tokens.length →
      (convertTokenizerOutputs tokens indices).1[p]? = tokens[j]? := by
  have hsort := sortedTokenPairs_sorted tokens indices
  have hperm2 := sortedTokenPairs_perm tokens indices
  have hzlen : (tokenPairs tokens indices).length = tokens.length := by
    simp [tokenPairs, List.length_zip, hlen]
  have hslen : (sortedTokenPairs tokens indices).length = tokens.length :=
    hperm2.length_eq.trans hzlen
  have hout : (convertTokenizerOutputs tokens indices).1
      = (sortedTokenPairs tokens indices).map Prod.snd := rfl
  have houtlen : (convertTokenizerOutputs tokens indices).1.length = tokens.length := by
    rw [hout, List.length_map, hslen]
  refine ⟨houtlen, ?_⟩
  have hfstperm : ((sortedTokenPairs tokens indices).map Prod.fst).Perm
      ((List.range tokens.length).map fun n : Nat => (n : Int)) := by
    have h1 := hperm2.map Prod.fst
    rw [show (tokenPairs tokens indices).map Prod.fst = indices from
      List.map_fst_zip indices tokens (le_of_eq hlen)] at h1
    exact h1.trans hperm
  have hfstsorted : List.Sorted (· ≤ ·) ((sortedTokenPairs tokens indices).map Prod.fst) :=
    List.Pairwise.map Prod.fst (fun _ _ hab => pairLe_fst_le hab) hsort
  have hrangesorted : List.Sorted (· ≤ ·)
      ((List.range tokens.length).map fun n : Nat => (n : Int)) :=
    List.Pairwise.map (fun n : Nat => (n : Int))
      (fun a b hab => by
        show (a : Int) ≤ (b : Int)
        exact_mod_cast Nat.le_of_lt hab)
      (List.sorted_lt_range tokens.length)
  have hfst : (sortedTokenPairs tokens indices).map Prod.fst
      = (List.range tokens.length).map fun n : Nat => (n : Int) :=
    List.eq_of_perm_of_sorted hfstperm hfstsorted hrangesorted
  intro j p hidx hp
  obtain ⟨hj, hij⟩ := List.getElem?_eq_some.mp hidx
  have hjt : j < tokens.length := hlen ▸ hj
  have hjz : j < (tokenPairs tokens indices).length := by rw [hzlen]; exact hjt
  have hzel : (tokenPairs tokens indices)[j] = (indices[j], tokens[j]) := by
    simp [tokenPairs, List.getElem_zip]
  have hmem : (indices[j], tokens[j]) ∈ sortedTokenPairs tokens indices := by
    rw [hperm2.mem_iff]
    exact hzel ▸ List.getElem_mem hjz
  obtain ⟨q, hq, hqe⟩ := List.mem_iff_getElem.mp hmem
  have hq2 : q < tokens.length := hslen ▸ hq
  have h1 : ((sortedTokenPairs tokens indices).map Prod.fst)[q]?
      = some ((sortedTokenPairs tokens indices)[q].1) := by
    simp [List.getElem?_map, List.getElem?_eq_getElem hq]
  have h2 : ((List.range tokens.length).map fun n : Nat => (n : Int))[q]?
      = some ((q : Int)) := by
    rw [List.getElem?_map, List.getElem?_eq_getElem (by simpa using hq2)]
    simp
  rw [hfst, h2] at h1
  have hqfst : (sortedTokenPairs tokens indices)[q].1 = (q : Int) :=
    (Option.some_inj.mp h1).symm
  have hqp : q = p := by
    have hcast : (q : Int) = (p : Int) := by
      rw [← hqfst, hqe]
      exact hij
    exact_mod_cast hcast
  obtain rfl := hqp
  rw [hout, List.getElem?_map, List.getElem?_eq_getElem hq, hqe,
    List.getElem?_eq_getElem hjt]
  simp

/-- C10: When two pairs share the same position index, the sorted pair
sequence orders them by ascending token id (the tuple sort's tie-breaker), so
the reorderer is deterministic but need not preserve the pairs' original
relative order. -/
theorem reorderer_tie_break_token_id (tokens indices : List Int) (i j : Nat)
    (hi : i < (sortedTokenPairs tokens indices).length)
    (hj : j < (sortedTokenPairs tokens indices).length) (hij : i < j)
    (heq : (sortedTokenPairs tokens indices)[i].1 = (sortedTokenPairs tokens indices)[j].1) :
    (sortedTokenPairs tokens indices)[i].2 ≤ (sortedTokenPairs tokens indices)[j].2 := by
  have hs := sortedTokenPairs_sorted tokens indices
  rcases (List.pairwise_iff_getElem.mp hs) i j hi hj hij with h | ⟨_, h⟩
  · rw [heq] at h
    exact absurd h (lt_irrefl _)
  · exact h

/-! Witnesses: each applies its claim theorem at a concrete input. -/

/-- C1 witness: one unmasked, non-special position with sparse row
[0.1, 0.9, 0.2]; the stored weight is the row maximum 0.9 — not the mean 0.4
and not the first element 0.1. -/
theorem sparse_position_weight_rule_witness :
    sparseAggregate specialTokenIds [1] [[[1/10, 9/10, 2/10]]] [7] = some [(7, 9/10)] ∧
    dictFind [(7, 9/10)] 7
      = (contribWeights specialTokenIds [1] [[[1/10, 9/10, 2/10]]] [7] 7).max? ∧
    (contribWeights specialTokenIds [1] [[[1/10, 9/10, 2/10]]] [7] 7).max? = some (9/10) :=
  ⟨by norm_num [sparseAggregate, sparseLoopFrom, posWeight, rowMax, dictSet, dictGetD,
      dictFind, specialTokenIds, List.max?],
   sparse_position_weight_rule specialTokenIds [1] [7] [[[1/10, 9/10, 2/10]]] [(7, 9/10)]
     (by norm_num [sparseAggregate, sparseLoopFrom, posWeight, rowMax, dictSet, dictGetD,
       dictFind, specialTokenIds, List.max?]) 7,
   by norm_num [contribWeights, contribFrom, posWeight, rowMax, specialTokenIds, List.max?]⟩

/-- C2 witness: the round-trip scenario — ids [2, 501, 501, 3], all-ones mask,
special set {0,1,2,3}, per-position maxima [0, 0.8, 0.3, 0] — yields exactly
the dictionary {501 ↦ 0.8} = {501 ↦ max 0.8 0.3}. -/
theorem sparse_duplicate_max_witness :
    sparseAggregate specialTokenIds [1, 1, 1, 1] [[[0], [4/5], [3/10], [0]]] [2, 501, 501, 3]
      = some [(501, 4/5)] ∧
    contribWeights specialTokenIds [1, 1, 1, 1] [[[0], [4/5], [3/10], [0]]]
      [2, 501, 501, 3] 501 = [4/5, 3/10] ∧
    dictFind [(501, 4/5)] 501 = some (max (4/5) (3/10)) ∧
    max ((4 : ℚ)/5) (3/10) = 4/5 :=
  ⟨by norm_num [sparseAggregate, sparseLoopFrom, posWeight, rowMax, dictSet, dictGetD,
      dictFind, specialTokenIds, List.max?],
   by norm_num [contribWeights, contribFrom, posWeight, rowMax, specialTokenIds, List.max?],
   sparse_duplicate_max specialTokenIds [1, 1, 1, 1] [2, 501, 501, 3]
     [[[0], [4/5], [3/10], [0]]] [(501, 4/5)] 501 (4/5) (3/10)
     (by norm_num [sparseAggregate, sparseLoopFrom, posWeight, rowMax, dictSet, dictGetD,
       dictFind, specialTokenIds, List.max?])
     (by norm_num [contribWeights, contribFrom, posWeight, rowMax, specialTokenIds,
       List.max?]),
   by norm_num⟩

/-- C7 witness: aggregating one positive-weight occurrence of id 501 gives an
entry whose key occurs in inputIds, is not special, and whose value is
positive. -/
theorem lexical_weights_invariant_witness :
    sparseAggregate specialTokenIds [1] [[[(2 : ℚ)]]] [501] = some [(501, 2)] ∧
    ((501 : Int) ∈ ([501] : List Int) ∧ (501 : Int) ∉ specialTokenIds ∧ (0 : ℚ) < 2) :=
  ⟨by decide,
   lexical_weights_invariant specialTokenIds [1] [501] [[[(2 : ℚ)]]] [(501, 2)]
     (by decide) (501, 2) (List.mem_singleton.mpr rfl)⟩

/-- C4 amended witness: the claim's own scenario — sparse position dimension 3
with N = 4 — makes position 3's row access fail, so the aggregation returns
no lexicalWeights at all. -/
theorem sparse_shape_failure_amended_witness :
    (([501, 502, 503, 504] : List Int))[3]? = some 504 ∧
    (([1, 1, 1, 1] : List Int))[3]? = some 1 ∧
    (504 : Int) ∉ specialTokenIds ∧
    posWeight [[[(1 : ℚ)], [(1 : ℚ)], [(1 : ℚ)]]] 3 = none ∧
    sparseAggregate specialTokenIds [1, 1, 1, 1] [[[(1 : ℚ)], [(1 : ℚ)], [(1 : ℚ)]]]
      [501, 502, 503, 504] = none :=
  ⟨rfl, rfl, by decide, rfl,
   sparse_shape_failure_amended specialTokenIds [1, 1, 1, 1] [501, 502, 503, 504]
     [[[(1 : ℚ)], [(1 : ℚ)], [(1 : ℚ)]]] 3 504 rfl rfl (by decide) rfl⟩

/-- C5 witness: mask [1,1,0,1] over four distinct vectors keeps exactly the
vectors of positions 0, 1, 3, in that order. -/
theorem colbert_mask_selection_witness :
    colbertExtract [1, 1, 0, 1] [[[(1 : ℚ)], [2], [3], [4]]]
      = some ((([(1 : Int), 1, 0, 1].zip [[(1 : ℚ)], [2], [3], [4]]).filter
          fun p => p.1 == 1).map Prod.snd) ∧
    ((([(1 : Int), 1, 0, 1].zip [[(1 : ℚ)], [2], [3], [4]]).filter
        fun p => p.1 == 1).map Prod.snd) = [[(1 : ℚ)], [2], [4]] :=
  ⟨(colbert_mask_selection [1, 1, 0, 1] [[(1 : ℚ)], [2], [3], [4]] rfl).1, by decide⟩

/-- C6 witness: tokens [7, 8] arriving with positions [1, 0] are reordered;
the output has the input's length and its element at index 1 is the token
paired with position 1 (which arrived first). -/
theorem reorderer_sorts_by_position_witness :
    (convertTokenizerOutputs [7, 8] [1, 0]).1.length = ([7, 8] : List Int).length ∧
    (convertTokenizerOutputs [7, 8] [1, 0]).1[1]? = (([7, 8] : List Int))[0]? := by
  have h := reorderer_sorts_by_position [7, 8] [1, 0] (by decide) (by decide)
  exact ⟨h.1, h.2 0 1 (by decide) (by decide)⟩

/-- C9 witness: the pipeline at a fixed concrete input yields its one
deterministic result. -/
theorem encode_deterministic_witness :
    encodePost [[(5 : ℚ)]] [[[(2 : ℚ)]]] [[[(3 : ℚ)]]] [501] [1]
      = some ⟨[(5 : ℚ)], [((501 : Int), (2 : ℚ))], [[(3 : ℚ)]]⟩ :=
  (encode_deterministic [[(5 : ℚ)]] [[[(2 : ℚ)]]] [[[(3 : ℚ)]]] [501] [1]
    (some ⟨[(5 : ℚ)], [((501 : Int), (2 : ℚ))], [[(3 : ℚ)]]⟩)
    (encodePost [[(5 : ℚ)]] [[[(2 : ℚ)]]] [[[(3 : ℚ)]]] [501] [1])
    (by decide) rfl).symm

/-- C10 witness: tokens [30, 10] both at position 5 are emitted as [10, 30] —
sorted by token id, deterministically, and not in their original relative
order. -/
theorem reorderer_tie_break_token_id_witness :
    sortedTokenPairs [30, 10] [5, 5] = [(5, 10), (5, 30)] ∧
    (convertTokenizerOutputs [30, 10] [5, 5]).1 = [10, 30] ∧
    (convertTokenizerOutputs [30, 10] [5, 5]).1 ≠ [30, 10] ∧
    ∃ (h0 : 0 < (sortedTokenPairs [30, 10] [5, 5]).length)
      (h1 : 1 < (sortedTokenPairs [30, 10] [5, 5]).length),
      (sortedTokenPairs [30, 10] [5, 5])[0].2 ≤ (sortedTokenPairs [30, 10] [5, 5])[1].2 :=
  ⟨by decide, by decide, by decide,
   ⟨by decide, by decide,
    reorderer_tie_break_token_id [30, 10] [5, 5] 0 1 (by decide) (by decide)
      (by decide) (by decide)⟩⟩

end BgeM3
